import Mathlib

/-
Verification development for the scraper repository.

The Python sources are shallowly embedded as executable Lean definitions:

* `normalizePrice` / `pyFloat?`  — `normalize_price` in `scraper.py` (and the
  identical copy in `src/scrapers/fora_scraper.py`), including the regex
  `(\d[\d\s,\.]*)\s*(грн|uah|UAH|₴)?` applied with `re.IGNORECASE`;
* `parseItemBlock` / `processBlocks` — `parse_item_block` and the per-block
  filtering loop inside `scrape_category` in `scraper.py`;
* `upsertListing` / `runBatch` — `HistoricalDB.upsert_listing` in
  `src/database/historical_db.py` and the per-item loop in
  `scripts/run_scraper.py`;
* `upsertSession` — `upsert_session` in `scripts/ingest_fora_json.py`;
* `ingestItems` — the per-item versioned insert loop of `ingest_json_files`
  in `scripts/ingest_fora_json.py`;
* `novusGo` / `foraGo` — the pagination loops `scrape_category` in
  `novus_scraper.py` and `scraper.py`;
* `parseCategoryPage` — `parse_category_page` in `novus_scraper.py`;
* `isAllowedByRobots` — `is_allowed_by_robots` in `scraper.py` (and the
  identical method in `src/scrapers/base_scraper.py`).

External library calls that no claim depends on (`urljoin`, `dateutil`
parsing, the date regex, HTML-to-DOM parsing) are abstracted as function
parameters or as pre-extracted fields of a `Block` record; SQLite tables are
modelled as Lean lists of rows, with the transactional commit/rollback of a
single upsert made explicit.
-/

/-- Whitespace as matched by `\s` in the price regex and stripped by Python
`float` (ASCII whitespace; the only non-ASCII space that can occur, `\xa0`,
is replaced by a plain space before the regex runs). -/
def isWsCh (c : Char) : Bool :=
  c = ' ' || c = '\t' || c = '\n' || c = '\r' || c = '\x0b' || c = '\x0c'

/-- Numeric value of a decimal digit character. -/
def digitVal (c : Char) : ℕ := c.toNat - '0'.toNat

/-- Value of a digit string read as a natural number. -/
def natOfDigits (l : List Char) : ℕ := l.foldl (fun n c => 10 * n + digitVal c) 0

/-- Value of a digit string read as a fractional part (digits after the dot). -/
def fracOfDigits (l : List Char) : ℚ := l.foldr (fun c q => (digitVal c + q) / 10) 0

/-- Python `float(s)` restricted to the strings that can come out of the
price regex group after separator normalization: optional surrounding
whitespace, then digits with at most one decimal dot.  Any other content
(several dots, interior whitespace) raises `ValueError`, modelled as `none`. -/
def pyFloat? (s : List Char) : Option ℚ :=
  let t := ((s.dropWhile isWsCh).reverse.dropWhile isWsCh).reverse
  let ip := t.takeWhile Char.isDigit
  let rest := t.dropWhile Char.isDigit
  match rest with
  | [] => if ip.isEmpty then none else some (natOfDigits ip)
  | '.' :: frac =>
      if frac.all Char.isDigit && !(ip.isEmpty && frac.isEmpty) then
        some ((natOfDigits ip : ℚ) + fracOfDigits frac)
      else none
  | _ => none

/-- Character class `[\d\s,\.]` of the price regex. -/
def groupClass (c : Char) : Bool :=
  c.isDigit || isWsCh c || c = ',' || c = '.'

/-- Case folding as performed by `re.IGNORECASE` on the characters that can
appear in the currency alternatives (`грн`, `uah`, `UAH`, `₴`): ASCII letters
plus the three Cyrillic capitals that fold onto `грн`. -/
def pyLower (c : Char) : Char :=
  if c = 'Г' then 'г' else if c = 'Р' then 'р' else if c = 'Н' then 'н' else c.toLower

/-- Try to match one currency alternative at the start of `l`, returning the
matched characters in their original case (the regex group captures the
source text, not the pattern). -/
def altAt (pat : List Char) (l : List Char) : Option (List Char) :=
  let cand := l.take pat.length
  if cand.length = pat.length && cand.map pyLower == pat.map pyLower then some cand
  else none

/-- Match the currency group `(грн|uah|UAH|₴)?` at a position, alternatives
tried in pattern order. -/
def matchCurrency (l : List Char) : Option (List Char) :=
  altAt "грн".toList l <|> altAt "uah".toList l <|> altAt "UAH".toList l <|>
    altAt "₴".toList l

/-- Embedding of `normalize_price` (`scraper.py`), on the character list of
the text.  `CURRENCY_RE.search` finds the leftmost match, which starts at the
first digit of the text; group 1 is the maximal run of `[\d\s,\.]` characters
from there (the `\s*` that follows can only match empty, since group 1 already
absorbs every whitespace character); the currency group is then tried at the
end of that run.  Group 1 has its spaces removed and commas turned into dots
before being handed to `float`. -/
def normalizePriceL (text : List Char) : Option ℚ × Option (List Char) :=
  let t := text.map (fun c => if c = '\xa0' then ' ' else c)
  let rest := t.dropWhile (fun c => !c.isDigit)
  match rest with
  | [] => (none, none)
  | _ :: _ =>
      let g1 := rest.takeWhile groupClass
      let after := rest.dropWhile groupClass
      let num := (g1.filter (fun c => !(c == ' '))).map (fun c => if c = ',' then '.' else c)
      (pyFloat? num, matchCurrency after)

/-- String-level wrapper of `normalizePriceL`. -/
def normalizePrice (s : String) : Option ℚ × Option String :=
  match normalizePriceL s.toList with
  | (p, none) => (p, none)
  | (p, some cs) => (p, some (String.mk cs))

/-- One extracted record, the dictionary shape returned by `parse_item_block`
and consumed by the storage layer. -/
structure Item where
  title : Option String
  url : Option String
  snippet : Option String
  imageUrl : Option String
  price : Option ℚ
  currency : Option String
  datePosted : Option String
deriving DecidableEq

/-- One candidate item block, carrying the results of the individual
BeautifulSoup queries that `parse_item_block` performs on it: the first
anchor with an `href` (with the text of a header inside it, if any, and the
anchor's own text), the first header of the block outside the anchor, the
first paragraph, the first image `src`, the whole block text, and the
`datetime` attribute of the first `time` element. -/
structure Block where
  anchorHref : Option String
  anchorHeaderText : Option String
  anchorText : String
  blockHeaderText : Option String
  pText : Option String
  imgSrc : Option String
  textAll : String
  timeDatetime : Option String
deriving DecidableEq

/-- Python falsiness of an optional string (`None` or the empty string). -/
def strFalsy : Option String → Bool
  | none => true
  | some s => s == ""

/-- Final per-field step `x.strip() if x else None` of `parse_item_block`. -/
def stripOrNone : Option String → Option String
  | none => none
  | some s => if s == "" then none else some s.trim

/-- Embedding of `parse_item_block` (`scraper.py`).  `join` abstracts
`urljoin`, `parseDate` abstracts the `dateutil` parse-to-isoformat (returning
`none` when parsing raises), `findDate` abstracts the date-token regex search
over the block text, and `base` is the base URL used for joining.  The
function is total: extraction never raises, unresolved fields are `none`. -/
def parseItemBlock (join : String → String → String) (parseDate : String → Option String)
    (findDate : String → Option String) (base : String) (b : Block) : Item :=
  let link : Option String :=
    match b.anchorHref with
    | some href => some (join base href)
    | none => none
  let title0 : Option String :=
    match b.anchorHref with
    | some _ =>
        match b.anchorHeaderText with
        | some h => some h
        | none => some b.anchorText
    | none => none
  let title1 : Option String :=
    if strFalsy title0 then
      match b.blockHeaderText with
      | some h => some h
      | none => title0
    else title0
  let image : Option String := b.imgSrc.map (join base)
  let pc := normalizePrice b.textAll
  let priceCur : Option ℚ × Option String :=
    match pc.1 with
    | some p => if p ≠ 0 then (some p, pc.2) else (none, none)
    | none => (none, none)
  let datePosted : Option String :=
    match b.timeDatetime with
    | some dt => parseDate dt
    | none =>
        match findDate b.textAll with
        | some ds => parseDate ds
        | none => none
  { title := stripOrNone title1
    url := link
    snippet := stripOrNone b.pText
    imageUrl := image
    price := priceCur.1
    currency := priceCur.2
    datePosted := datePosted }

/-- Embedding of the per-block loop inside `scrape_category` (`scraper.py`):
each candidate block is parsed; a record with neither URL nor title is
skipped, every other record is upserted into the store and collected. -/
def processBlocks (join : String → String → String) (parseDate : String → Option String)
    (findDate : String → Option String) (base : String) (blocks : List Block) : List Item :=
  blocks.filterMap (fun b =>
    let i := parseItemBlock join parseDate findDate base b
    if i.url.isNone && i.title.isNone then none else some i)

/-- One row of the `listings` table of `HistoricalDB`
(`src/database/historical_db.py`).  `url` is declared `UNIQUE NOT NULL`;
timestamps are abstracted as naturals. -/
structure ListingRow where
  id : ℕ
  url : String
  title : Option String
  snippet : Option String
  imageUrl : Option String
  price : Option ℚ
  currency : Option String
  datePosted : Option String
  scrapedAt : ℕ
  site : String
  category : Option String
deriving DecidableEq

/-- One row of the `price_history` table of `HistoricalDB`. -/
structure HistRow where
  listingId : Option ℕ
  url : String
  price : Option ℚ
  currency : Option String
  recordedAt : ℕ
deriving DecidableEq

/-- The `HistoricalDB` state: both tables plus the autoincrement counter. -/
structure HistDB where
  listings : List ListingRow
  history : List HistRow
  nextId : ℕ
deriving DecidableEq

/-- Points inside `upsert_listing` at which `sqlite3.Error` can be raised:
the main `INSERT`/`UPDATE` of the listing, or the `INSERT` into
`price_history`. -/
inductive UpStep where
  | writeMain
  | writeHistory
deriving DecidableEq

/-- Column assignments of the `UPDATE` statement of `upsert_listing`: every
mutable column is overwritten with the item's value and the new timestamp;
`id` and `url` are untouched. -/
def updRow (item : Item) (site : String) (category : Option String) (now : ℕ)
    (l : ListingRow) : ListingRow :=
  { l with title := item.title, snippet := item.snippet, imageUrl := item.imageUrl,
           price := item.price, currency := item.currency, datePosted := item.datePosted,
           scrapedAt := now, site := site, category := category }

/-- Row-level effect of `UPDATE listings ... WHERE url = ?`. -/
def updIf (item : Item) (site : String) (category : Option String) (now : ℕ)
    (u₀ : String) (l : ListingRow) : ListingRow :=
  if l.url = u₀ then updRow item site category now l else l

/-- Embedding of `HistoricalDB.upsert_listing`.  The whole call is one
transaction: staged changes are committed at the end, and any injected
`sqlite3.Error` (the `failAt` parameter; `none` means no error) triggers
`conn.rollback()`, leaving the committed state untouched and returning
`(False, None)`.  An item without a URL matches no row (SQL `url = NULL` is
never true) and its `INSERT` violates the `NOT NULL` constraint, which is the
same error path.  Returns the new database plus the `(is_new, listing_id)`
pair. -/
def upsertListing (db : HistDB) (item : Item) (site : String) (category : Option String)
    (now : ℕ) (failAt : Option UpStep) : HistDB × (Bool × Option ℕ) :=
  let existing := db.listings.find? (fun l => item.url == some l.url)
  match existing with
  | none =>
      match item.url with
      | none => (db, (false, none))
      | some u =>
          if failAt = some .writeMain then (db, (false, none))
          else
            let row : ListingRow :=
              { id := db.nextId, url := u, title := item.title, snippet := item.snippet,
                imageUrl := item.imageUrl, price := item.price, currency := item.currency,
                datePosted := item.datePosted, scrapedAt := now, site := site,
                category := category }
            ({ listings := db.listings ++ [row], history := db.history,
               nextId := db.nextId + 1 }, (true, some db.nextId))
  | some l₀ =>
      if failAt = some .writeMain then (db, (false, none))
      else
        let listings' := db.listings.map (updIf item site category now l₀.url)
        if item.price ≠ none ∧ l₀.price ≠ item.price then
          if failAt = some .writeHistory then (db, (false, none))
          else
            ({ listings := listings',
               history := db.history ++
                 [{ listingId := some l₀.id, url := l₀.url, price := item.price,
                    currency := item.currency, recordedAt := now }],
               nextId := db.nextId }, (false, some l₀.id))
        else
          ({ listings := listings', history := db.history, nextId := db.nextId },
           (false, some l₀.id))

/-- Embedding of the save loop of `run_scraper` (`scripts/run_scraper.py`):
every scraped item is upserted in turn, counting new and updated listings;
`failAt` injects a storage error for selected item positions.  `upsert_listing`
catches its own `sqlite3.Error`, so the loop never aborts early. -/
def runBatch (db : HistDB) (items : List Item) (site : String) (category : Option String)
    (now : ℕ) (failAt : ℕ → Option UpStep) : HistDB × ℕ × ℕ :=
  (items.enum.foldl (fun acc it =>
    let r := upsertListing acc.1 it.2 site category now (failAt it.1)
    if r.2.1 then (r.1, acc.2.1 + 1, acc.2.2) else (r.1, acc.2.1, acc.2.2 + 1))
    (db, 0, 0))

/-- One row of the `scrape_sessions` table (`scripts/ingest_fora_json.py`);
the nullable columns are options, `status` is kept as the literal string the
script writes. -/
structure SessionRow where
  sessionId : String
  siteName : String
  startTime : Option ℕ
  endTime : Option ℕ
  pagesScraped : Option ℕ
  productsFound : Option ℕ
  errorsCount : Option ℕ
  status : String
deriving DecidableEq

/-- Effect on one row of the unconditional `UPDATE` that closes
`upsert_session`: the row of the target session gets the new `end_time`,
counters and status `completed`; any other row is untouched. -/
def sessUpdate (sid : String) (pages products errors now : ℕ) (r : SessionRow) : SessionRow :=
  if r.sessionId = sid then
    { r with endTime := some now, pagesScraped := some pages,
             productsFound := some products, errorsCount := some errors,
             status := "completed" }
  else r

/-- Embedding of `upsert_session` (`scripts/ingest_fora_json.py`): insert a
fresh `running` row when the session id is unseen, then unconditionally
`UPDATE` every row of that session id with the new `end_time`, counters and
status `completed`. -/
def upsertSession (tbl : List SessionRow) (sid site : String)
    (pages products errors : ℕ) (now : ℕ) : List SessionRow :=
  let tbl1 :=
    if (tbl.find? (fun r => r.sessionId == sid)).isSome then tbl
    else tbl ++ [{ sessionId := sid, siteName := site, startTime := some now,
                   endTime := none, pagesScraped := none, productsFound := none,
                   errorsCount := none, status := "running" }]
  tbl1.map (sessUpdate sid pages products errors now)

/-- One row of the versioned `products_history` table
(`scripts/ingest_fora_json.py`). -/
structure VRow where
  productUrl : String
  productName : Option String
  price : Option ℚ
  currency : String
  imageUrl : Option String
  category : String
  siteName : String
  scrapedAt : Option String
  sessionId : Option String
  dataHash : String
deriving DecidableEq

/-- One item of an ingested JSON payload.  Fields are optional; a missing
key falls back to the payload-level default (the model conflates a key that
is absent with one whose value is `null`, which no claim distinguishes). -/
structure IngestItem where
  url : Option String
  productName : Option String
  price : Option ℚ
  currency : Option String
  imageUrl : Option String
  category : Option String
  siteName : Option String
  scrapedAt : Option String
  sessionId : Option String
deriving DecidableEq

/-- Payload-level defaults used by `ingest_json_files` for one JSON file. -/
structure Payload where
  site : String
  sessionId : Option String
  scrapedAt : Option String
deriving DecidableEq

/-- The `products_history` row inserted for a new version of an item,
payload defaults applied. -/
def newVRow (hash : String → Option String → Option ℚ → String) (p : Payload)
    (it : IngestItem) (u : String) : VRow :=
  { productUrl := u, productName := it.productName, price := it.price,
    currency := it.currency.getD "₴", imageUrl := it.imageUrl,
    category := it.category.getD "Молочні продукти та яйця",
    siteName := it.siteName.getD p.site,
    scrapedAt := match it.scrapedAt with | some s => some s | none => p.scrapedAt,
    sessionId := match it.sessionId with | some s => some s | none => p.sessionId,
    dataHash := hash u it.productName it.price }

/-- One iteration of the item loop of `ingest_json_files`: skip an item
without a URL; hash the `(url, name, price)` triple (`hash` abstracts
`md5(json.dumps(...))`, a deterministic function of the triple); skip when
that `(product_url, data_hash)` version already exists; otherwise append the
new version row and count it. -/
def ingestStep (hash : String → Option String → Option ℚ → String) (p : Payload)
    (acc : List VRow × ℕ) (it : IngestItem) : List VRow × ℕ :=
  match it.url with
  | none => acc
  | some u =>
      let h := hash u it.productName it.price
      if acc.1.any (fun r => r.productUrl == u && r.dataHash == h) then acc
      else (acc.1 ++ [newVRow hash p it u], acc.2 + 1)

/-- Embedding of the per-file item loop of `ingest_json_files`: fold
`ingestStep` over the items, returning the grown table and the number of new
version rows inserted. -/
def ingestItems (hash : String → Option String → Option ℚ → String) (p : Payload)
    (tbl : List VRow) (items : List IngestItem) : List VRow × ℕ :=
  items.foldl (ingestStep hash p) (tbl, 0)

/-- Embedding of the pagination loop of `scrape_category`
(`novus_scraper.py`).  `fetch` abstracts fetch-plus-`parse_category_page` for
a page number (`none` models a raised fetch exception, which breaks the
loop); `allLinks` is the accumulated link set (kept as a list, membership is
all the loop inspects); the second component counts fetch attempts.  The loop
stops on the caller's `max_pages` limit, on the safety cap `MAX_PAGES = 100`,
on a fetch failure, or when a page contributes no new links. -/
def novusGo (fetch : ℕ → Option (List String)) (maxPages : ℕ) (pageNum : ℕ)
    (allLinks : List String) (att : ℕ) : List String × ℕ :=
  if maxPages ≠ 0 ∧ maxPages < pageNum then (allLinks, att)
  else if 100 < pageNum then (allLinks, att)
  else match fetch pageNum with
    | none => (allLinks, att + 1)
    | some links =>
        let newLinks := links.filter (fun l => !allLinks.contains l)
        if newLinks.isEmpty then (allLinks, att + 1)
        else novusGo fetch maxPages (pageNum + 1) (allLinks ++ newLinks) (att + 1)
termination_by 101 - pageNum
decreasing_by omega

/-- The Novus category crawl started at page 1 with an empty link set. -/
def novusScrape (fetch : ℕ → Option (List String)) (maxPages : ℕ) : List String × ℕ :=
  novusGo fetch maxPages 1 [] 0

/-- Link list of page `n` as the loop sees it (`[]` for a failed fetch). -/
def linksOf (fetch : ℕ → Option (List String)) (n : ℕ) : List String :=
  (fetch n).getD []

/-- One fetched Fora category page as `scrape_category` (`scraper.py`)
inspects it: its candidate item blocks and the result of
`find_pagination_next` on its soup. -/
structure ForaPage where
  blocks : List Block
  next : Option String

/-- Embedding of the pagination loop of `scrape_category` (`scraper.py`).
`fetch` abstracts `fetch` plus `BeautifulSoup` (`none` is a raised fetch
error, breaking the loop); blocks of each page are parsed, filtered and
collected by `processBlocks`; the loop then follows the next-page link,
stopping on the caller's `max_pages` limit, the safety cap `MAX_PAGES = 100`,
a missing next link, or a self-referential one.  The second component counts
fetch attempts. -/
def foraGo (fetch : String → Option ForaPage) (join : String → String → String)
    (parseDate : String → Option String) (findDate : String → Option String)
    (base : String) (maxPages : ℕ) (url : String) (count : ℕ)
    (acc : List Item) (att : ℕ) : List Item × ℕ :=
  if 0 < maxPages ∧ maxPages ≤ count then (acc, att)
  else if 100 ≤ count then (acc, att)
  else match fetch url with
    | none => (acc, att + 1)
    | some pg =>
        let acc2 := acc ++ processBlocks join parseDate findDate base pg.blocks
        match pg.next with
        | none => (acc2, att + 1)
        | some nxt =>
            if nxt = url then (acc2, att + 1)
            else foraGo fetch join parseDate findDate base maxPages nxt (count + 1) acc2 (att + 1)
termination_by 100 - count
decreasing_by omega

/-- The Fora category crawl started at `start_url` (the preceding robots
check, which aborts via `SystemExit` before the loop runs, is modelled
separately by `isAllowedByRobots`). -/
def foraScrape (fetch : String → Option ForaPage) (join : String → String → String)
    (parseDate : String → Option String) (findDate : String → Option String)
    (base : String) (maxPages : ℕ) (startUrl : String) : List Item × ℕ :=
  foraGo fetch join parseDate findDate base maxPages startUrl 0 [] 0

/-- Bool test for `pat` being a prefix of `l` (character lists). -/
def startsList : List Char → List Char → Bool
  | [], _ => true
  | _ :: _, [] => false
  | p :: ps, c :: cs => p == c && startsList ps cs

/-- Worker for `hasSub`: try a prefix match at every suffix. -/
def goHasSub (pat : List Char) : List Char → Bool
  | [] => pat.isEmpty
  | c :: cs => startsList pat (c :: cs) || goHasSub pat cs

/-- Bool test for Python's `pat in s` substring membership. -/
def hasSub (pat : String) (s : String) : Bool :=
  goHasSub pat.toList s.toList

/-- The Python set built by `parse_category_page` (`novus_scraper.py`): the
joined URLs of all anchors whose `href` contains `/products/`.  The set value
is represented as a duplicate-free list (membership and cardinality are all
the code observes of it); `join` abstracts `urljoin`; `hrefs` are the `href`
values of the page's anchors in document order. -/
def productLinks (join : String → String → String) (base : String)
    (hrefs : List String) : List String :=
  hrefs.foldl (fun s h =>
    if hasSub "/products/" h then (if join base h ∈ s then s else s ++ [join base h])
    else s) []

/-- A legal enumeration of a Python set value: some list carrying each
element of the set exactly once — which is all that `list(set)` guarantees,
its iteration order being unspecified. -/
def ValidEnum (enum : List String → List String) : Prop :=
  ∀ l : List String, l.Nodup → ((enum l).Nodup ∧ ∀ x, x ∈ enum l ↔ x ∈ l)

/-- Embedding of `parse_category_page` (`novus_scraper.py`): `return
list(links)` enumerates the set in an unspecified iteration order, modelled
by the `enum` parameter. -/
def parseCategoryPage (enum : List String → List String)
    (join : String → String → String) (base : String) (hrefs : List String) : List String :=
  enum (productLinks join base hrefs)

/-- One legal enumeration: reversal of the representation list. -/
def revEnum (l : List String) : List String := l.reverse

/-- Modelled from the spec: the item list "ordered by insertion order of
first discovery" — the normalized product URLs in order of first occurrence,
later duplicates dropped. -/
def firstDiscoveryOrder (join : String → String → String) (base : String)
    (hrefs : List String) : List String :=
  ((hrefs.filter (hasSub "/products/")).map (join base)).foldl
    (fun acc u => if u ∈ acc then acc else acc ++ [u]) []

/-- Python `str.strip()` on the whitespace that occurs in robots lines. -/
def trimS (s : String) : String :=
  String.mk (((s.toList.dropWhile isWsCh).reverse.dropWhile isWsCh).reverse)

/-- Python `str.lower()` (ASCII folding, which covers robots.txt syntax). -/
def toLowerS (s : String) : String := String.mk (s.toList.map Char.toLower)

/-- Python `s.startswith(pre)`. -/
def startsWithS (s pre : String) : Bool := startsList pre.toList s.toList

/-- Value after the first `:` of a robots.txt line, `split(":", 1)[1]`. -/
def afterColon (s : String) : String :=
  String.mk ((s.toList.dropWhile (fun c => !(c == ':'))).tail)

/-- A robots.txt line skipped by the scan: blank or comment (after strip). -/
def skipLine (line : String) : Bool :=
  trimS line == "" || startsWithS (trimS line) "#"

/-- A robots.txt line that opens a user-agent group. -/
def uaLineTest (line : String) : Bool :=
  startsWithS (toLowerS (trimS line)) "user-agent:"

/-- A robots.txt line that is a `Disallow:` rule. -/
def disallowTest (line : String) : Bool :=
  startsWithS (toLowerS (trimS line)) "disallow:"

/-- The stripped path value of a `Disallow:` line. -/
def disallowPath (line : String) : String :=
  trimS (afterColon (trimS line))

/-- The user-agent group state after one robots.txt line: blank and comment
lines keep it, a `user-agent:` line replaces it, anything else keeps it. -/
def uaStateStep (ua : Option String) (line : String) : Option String :=
  if skipLine line then ua
  else if uaLineTest line then some (trimS (afterColon (trimS line)))
  else ua

/-- The user-agent group in force after a prefix of robots.txt lines. -/
def uaState (init : Option String) (lines : List String) : Option String :=
  lines.foldl uaStateStep init

/-- Whether a group state applies to this crawler: Python requires a truthy
`ua` value that is `*` or a case-insensitive prefix of the crawler's user
agent. -/
def uaMatches (userAgent : String) : Option String → Bool
  | none => false
  | some u => !(u == "") && (u == "*" || startsWithS (toLowerS userAgent) (toLowerS u))

/-- Whether a single robots.txt line is a `Disallow:` rule with a non-empty
path that prefixes the target path. -/
def blockingLine (targetPath : String) (line : String) : Bool :=
  !skipLine line && !uaLineTest line && disallowTest line &&
    (!(disallowPath line == "") && startsWithS targetPath (disallowPath line))

/-- The line scan of `is_allowed_by_robots` (`scraper.py`): walk the lines
keeping the current user-agent group; inside a matching group, a `Disallow`
whose non-empty path prefixes the target path refuses the crawl. -/
def robotsLoop (targetPath userAgent : String) : List String → Option String → Bool
  | [], _ => true
  | line :: rest, ua =>
      if skipLine line then robotsLoop targetPath userAgent rest ua
      else if uaLineTest line then
        robotsLoop targetPath userAgent rest (some (trimS (afterColon (trimS line))))
      else
        match ua with
        | none => robotsLoop targetPath userAgent rest none
        | some u =>
            if !(u == "") && (u == "*" || startsWithS (toLowerS userAgent) (toLowerS u)) then
              if disallowTest line then
                if !(disallowPath line == "") && startsWithS targetPath (disallowPath line) then
                  false
                else robotsLoop targetPath userAgent rest ua
              else robotsLoop targetPath userAgent rest ua
            else robotsLoop targetPath userAgent rest ua

/-- Embedding of `is_allowed_by_robots` (`scraper.py`): `fetchRes` is the
robots.txt fetch outcome — `none` for a raised exception, otherwise the
status code and the `splitlines()` of the body; `targetPath` is
`urlparse(url).path`.  Any exception or non-200 status allows the crawl. -/
def isAllowedByRobots (fetchRes : Option (ℕ × List String))
    (targetPath userAgent : String) : Bool :=
  match fetchRes with
  | none => true
  | some (st, lines) =>
      if st ≠ 200 then true
      else robotsLoop targetPath userAgent lines none

/-- The price-history row that `upsert_listing` appends on a detected price
change for the stored listing `l₀`. -/
def histEntry (l₀ : ListingRow) (item : Item) (now : ℕ) : HistRow :=
  { listingId := some l₀.id, url := l₀.url, price := item.price,
    currency := item.currency, recordedAt := now }

/-- C1: when `upsert_listing` is called on a URL whose listing is already
stored, a `price_history` row is appended if and only if the newly observed
price is non-null and differs from the stored price (so null→value appends
exactly one row and value→null appends nothing); existing history rows are
untouched and never more than one row is appended per call. -/
theorem upsert_history_append_iff (db : HistDB) (item : Item) (site : String)
    (category : Option String) (now : ℕ) (l₀ : ListingRow)
    (h : db.listings.find? (fun l => item.url == some l.url) = some l₀) :
    (upsertListing db item site category now none).1.history =
      db.history ++
        (if item.price ≠ none ∧ l₀.price ≠ item.price then [histEntry l₀ item now] else []) ∧
    ((upsertListing db item site category now none).1.history.length =
        db.history.length + 1 ↔ (item.price ≠ none ∧ l₀.price ≠ item.price)) ∧
    (upsertListing db item site category now none).1.history.length ≤ db.history.length + 1 := by
  unfold upsertListing
  rw [h]
  by_cases hc : item.price ≠ none ∧ l₀.price ≠ item.price
  · simp [hc, histEntry]
  · simp [hc]

/-- A stored listing row used to instantiate the storage theorems. -/
def rowW : ListingRow :=
  { id := 1, url := "https://fora.ua/p/1", title := some "Молоко",
    snippet := none, imageUrl := none, price := some 10,
    currency := some "грн", datePosted := none, scrapedAt := 0,
    site := "fora", category := none }

/-- A one-listing database used to instantiate the storage theorems. -/
def dbW : HistDB :=
  { listings := [rowW], history := [], nextId := 2 }

/-- An observation of the same URL at a changed price. -/
def itemW : Item :=
  { title := some "Молоко", url := some "https://fora.ua/p/1", snippet := none,
    imageUrl := none, price := some 12, currency := some "грн", datePosted := none }

/-- C1 witness: the theorem applied to a stored listing at price 10 observing
price 12. -/
theorem upsert_history_append_iff_witness :
    (upsertListing dbW itemW "fora" none 5 none).1.history =
      dbW.history ++
        (if itemW.price ≠ none ∧ (rowW).price ≠ itemW.price then
          [histEntry rowW itemW 5] else []) ∧
    ((upsertListing dbW itemW "fora" none 5 none).1.history.length =
        dbW.history.length + 1 ↔ (itemW.price ≠ none ∧ (rowW).price ≠ itemW.price)) ∧
    (upsertListing dbW itemW "fora" none 5 none).1.history.length ≤ dbW.history.length + 1 :=
  upsert_history_append_iff dbW itemW "fora" none 5 rowW (by decide)

/-- Helper: `find?` commutes with a map that does not change the predicate. -/
theorem find?_map_pred {α : Type} (g : α → α) (p : α → Bool)
    (hp : ∀ a, p (g a) = p a) (l : List α) :
    (l.map g).find? p = (l.find? p).map g := by
  rw [List.find?_map]
  have he : (p ∘ g) = p := funext hp
  rw [he]

/-- Helper: mapping a function that fixes every element kept by a filter. -/
theorem map_id_on_filter {α : Type} (g : α → α) (p : α → Bool)
    (hg : ∀ a, p a = true → g a = a) (l : List α) :
    (l.filter p).map g = l.filter p := by
  induction l with
  | nil => rfl
  | cons a l ih =>
      by_cases h : p a = true
      · simp [List.filter_cons, h, hg a h, ih]
      · simp only [List.filter_cons]
        rw [Bool.not_eq_true] at h
        simp [h, ih]

/-- C3 counterexample: finalization is not a first-call-wins no-op.  After a
session has been finalized (status `completed`, `end_time = 1`), a second
`upsert_session` call overwrites `end_time` with the new time `2`, so the
claimed invariant "a later finalization call changes neither status nor
end_time / end_time is assigned exactly once" fails on this concrete run. -/
theorem session_finalize_not_noop :
    ((upsertSession (upsertSession [] "s1" "Fora.ua" 3 40 0 1) "s1" "Fora.ua" 3 40 0 2).find?
        (fun r => r.sessionId == "s1")).map SessionRow.endTime = some (some 2) ∧
    ((upsertSession [] "s1" "Fora.ua" 3 40 0 1).find?
        (fun r => r.sessionId == "s1")).map SessionRow.endTime = some (some 1) ∧
    upsertSession (upsertSession [] "s1" "Fora.ua" 3 40 0 1) "s1" "Fora.ua" 3 40 0 2 ≠
      upsertSession [] "s1" "Fora.ua" 3 40 0 1 := by
  decide

/-- Helper: filtering on the complement of a predicate that a row map
preserves and whose false rows the map fixes. -/
theorem filter_not_map {α : Type} (g : α → α) (p : α → Bool)
    (hp : ∀ a, p (g a) = p a) (hfix : ∀ a, p a = false → g a = a) (l : List α) :
    (l.map g).filter (fun a => !(p a)) = l.filter (fun a => !(p a)) := by
  induction l with
  | nil => rfl
  | cons a l ih =>
      simp only [List.map_cons, List.filter_cons, hp]
      cases h : p a
      · simp [h, hfix a h, ih]
      · simp [h, ih]

/-- Helper: `sessUpdate` never changes a row's session id. -/
theorem sessUpdate_id (sid : String) (pages products errors now : ℕ) (r : SessionRow) :
    ((sessUpdate sid pages products errors now r).sessionId == sid) =
      (r.sessionId == sid) := by
  unfold sessUpdate
  by_cases h : r.sessionId = sid <;> simp [h]

/-- Helper: `sessUpdate` fixes rows of other sessions. -/
theorem sessUpdate_fix (sid : String) (pages products errors now : ℕ) (r : SessionRow)
    (h : (r.sessionId == sid) = false) :
    sessUpdate sid pages products errors now r = r := by
  unfold sessUpdate
  have : ¬ r.sessionId = sid := by simpa using h
  simp [this]

/-- C3 amended: finalization is last-write-wins, not first-call-wins.  Every
`upsert_session` call (first or repeated) leaves the session row with status
`completed` and `end_time` equal to the time of that call — so status never
returns to `running` and is never set to `failed` by this operation, but
`end_time` is overwritten by each finalization instead of being assigned
exactly once; rows of other sessions are untouched. -/
theorem session_finalize_last_write (tbl : List SessionRow) (sid site : String)
    (pages products errors now : ℕ) :
    (∃ r, (upsertSession tbl sid site pages products errors now).find?
        (fun r => r.sessionId == sid) = some r ∧
      r.status = "completed" ∧ r.endTime = some now) ∧
    (upsertSession tbl sid site pages products errors now).filter
        (fun r => !(r.sessionId == sid)) =
      tbl.filter (fun r => !(r.sessionId == sid)) := by
  unfold upsertSession
  constructor
  · rw [find?_map_pred _ _ (sessUpdate_id sid pages products errors now)]
    rcases hf : tbl.find? (fun r => r.sessionId == sid) with _ | r
    · refine ⟨sessUpdate sid pages products errors now
        { sessionId := sid, siteName := site, startTime := some now, endTime := none,
          pagesScraped := none, productsFound := none, errorsCount := none,
          status := "running" }, ?_, ?_, ?_⟩
      · simp [hf, List.find?_append, List.find?_cons]
      · simp [sessUpdate]
      · simp [sessUpdate]
    · have hr : r.sessionId = sid := by
        simpa using List.find?_some hf
      refine ⟨sessUpdate sid pages products errors now r, ?_, ?_, ?_⟩
      · simp [hf]
      · simp [sessUpdate, hr]
      · simp [sessUpdate, hr]
  · by_cases h : (tbl.find? (fun r => r.sessionId == sid)).isSome = true
    · simp only [h, if_true]
      exact filter_not_map _ _ (sessUpdate_id sid pages products errors now)
        (sessUpdate_fix sid pages products errors now) tbl
    · simp only [h, if_false]
      rw [filter_not_map _ _ (sessUpdate_id sid pages products errors now)
        (sessUpdate_fix sid pages products errors now)]
      simp

/-- Helper: the save loop of `run_scraper` classifies every single item as
new or updated, regardless of where storage errors are injected. -/
theorem batchFold_counts (site : String) (category : Option String) (now : ℕ)
    (failAt : ℕ → Option UpStep) :
    ∀ (l : List (ℕ × Item)) (db : HistDB) (a b : ℕ),
      ((l.foldl (fun acc it =>
          let r := upsertListing acc.1 it.2 site category now (failAt it.1)
          if r.2.1 then (r.1, acc.2.1 + 1, acc.2.2) else (r.1, acc.2.1, acc.2.2 + 1))
        (db, a, b)).2.1 : ℕ) +
      ((l.foldl (fun acc it =>
          let r := upsertListing acc.1 it.2 site category now (failAt it.1)
          if r.2.1 then (r.1, acc.2.1 + 1, acc.2.2) else (r.1, acc.2.1, acc.2.2 + 1))
        (db, a, b)).2.2 : ℕ) = a + b + l.length := by
  intro l
  induction l with
  | nil => intro db a b; simp
  | cons x l ih =>
      intro db a b
      simp only [List.foldl_cons]
      cases hr : (upsertListing db x.2 site category now (failAt x.1)).2.1
      · simp only [hr, Bool.false_eq_true, if_false]
        rw [ih]
        simp only [List.length_cons]
        omega
      · simp only [hr, if_true]
        rw [ih]
        simp only [List.length_cons]
        omega

/-- C8: each upsert is atomic per record and failures are contained.  When a
storage error is injected at any step of a single `upsert_listing` call,
either that step is actually reached — then the whole transaction is rolled
back (the returned database is exactly the caller's database, so the listing
write and the history insert are undone together) and the call returns the
error value `(False, None)` instead of raising — or the step is never
executed and the call behaves as an error-free one.  Moreover the batch loop
of `run_scraper` still classifies every item of the batch, whatever errors
individual upserts hit: no failure aborts the remaining records. -/
theorem upsert_atomic_batch_continues (db : HistDB) (item : Item) (site : String)
    (category : Option String) (now : ℕ) (st : UpStep) :
    (upsertListing db item site category now (some st) = (db, (false, none)) ∨
     upsertListing db item site category now (some st) =
       upsertListing db item site category now none) ∧
    (∀ (items : List Item) (failAt : ℕ → Option UpStep),
      (runBatch db items site category now failAt).2.1 +
        (runBatch db items site category now failAt).2.2 = items.length) := by
  constructor
  · unfold upsertListing
    rcases hf : db.listings.find? (fun l => item.url == some l.url) with _ | l₀ <;>
      rw [hf]
    · rcases hu : item.url with _ | u
      · left; rfl
      · cases st
        · left; simp
        · right; simp
    · cases st
      · left; simp
      · by_cases hc : item.price ≠ none ∧ l₀.price ≠ item.price
        · left
          obtain ⟨h1, h2⟩ := hc
          simp [h1, h2]
        · right
          simp [hc]
  · intro items failAt
    unfold runBatch
    rw [batchFold_counts]
    simp

/-- C9: a price that parses to exactly zero is indistinguishable from a
missing price — `parse_item_block` accepts the extracted value only when it
is truthy, and `0.0` is falsy in Python, so the returned record has both
`price` and `currency` null. -/
theorem zero_price_indistinguishable (join : String → String → String)
    (parseDate findDate : String → Option String) (base : String) (b : Block)
    (h : (normalizePrice b.textAll).1 = some 0) :
    (parseItemBlock join parseDate findDate base b).price = none ∧
    (parseItemBlock join parseDate findDate base b).currency = none := by
  unfold parseItemBlock
  simp [h]

/-- Concrete urljoin stand-in for witnesses: plain concatenation. -/
def joinW (base rel : String) : String := base ++ rel

/-- Concrete date-parse stand-in for witnesses: always fails. -/
def pdW (_ : String) : Option String := none

/-- Concrete date-search stand-in for witnesses: finds nothing. -/
def fdW (_ : String) : Option String := none

/-- A block whose text carries a zero price. -/
def blockZeroW : Block :=
  { anchorHref := some "/p/2", anchorHeaderText := some "Сметана", anchorText := "",
    blockHeaderText := none, pText := none, imgSrc := none, textAll := "0 грн",
    timeDatetime := none }

/-- C9 witness: the theorem applied to a block whose text is `0 грн`. -/
theorem zero_price_indistinguishable_witness :
    (parseItemBlock joinW pdW fdW "https://fora.ua" blockZeroW).price = none ∧
    (parseItemBlock joinW pdW fdW "https://fora.ua" blockZeroW).currency = none :=
  zero_price_indistinguishable joinW pdW fdW "https://fora.ua" blockZeroW (by decide)

/-- C5: extraction is total and tolerant — a block whose text holds no
parseable price still yields a record, with `price = null`; the loop of
`scrape_category` keeps any parsed record that has a URL or a title (so a
title-only record is still a storage candidate) and drops exactly the
records that have neither before they reach the store. -/
theorem extraction_tolerant_filter (join : String → String → String)
    (parseDate findDate : String → Option String) (base : String) :
    (∀ b : Block, (normalizePrice b.textAll).1 = none →
      (parseItemBlock join parseDate findDate base b).price = none) ∧
    (∀ (blocks : List Block) (b : Block), b ∈ blocks →
      ((parseItemBlock join parseDate findDate base b).url ≠ none ∨
       (parseItemBlock join parseDate findDate base b).title ≠ none) →
      parseItemBlock join parseDate findDate base b ∈
        processBlocks join parseDate findDate base blocks) ∧
    (∀ (blocks : List Block) (i : Item),
      i ∈ processBlocks join parseDate findDate base blocks →
      (i.url ≠ none ∨ i.title ≠ none)) := by
  refine ⟨?_, ?_, ?_⟩
  · intro b h
    unfold parseItemBlock
    simp [h]
  · intro blocks b hb hor
    unfold processBlocks
    rw [List.mem_filterMap]
    refine ⟨b, hb, ?_⟩
    have hc : ((parseItemBlock join parseDate findDate base b).url.isNone &&
        (parseItemBlock join parseDate findDate base b).title.isNone) = false := by
      rcases hor with h | h
      · have hu : (parseItemBlock join parseDate findDate base b).url.isNone = false := by
          cases he : (parseItemBlock join parseDate findDate base b).url
          · exact absurd he h
          · rfl
        simp [hu]
      · have ht : (parseItemBlock join parseDate findDate base b).title.isNone = false := by
          cases he : (parseItemBlock join parseDate findDate base b).title
          · exact absurd he h
          · rfl
        simp [ht]
    simp [hc]
  · intro blocks i hi
    unfold processBlocks at hi
    rw [List.mem_filterMap] at hi
    obtain ⟨b, _, hbi⟩ := hi
    by_cases hc : ((parseItemBlock join parseDate findDate base b).url.isNone &&
        (parseItemBlock join parseDate findDate base b).title.isNone) = true
    · rw [if_pos hc] at hbi
      cases hbi
    · rw [if_neg hc] at hbi
      obtain rfl : parseItemBlock join parseDate findDate base b = i := by
        simpa using hbi
      have hc' : ((parseItemBlock join parseDate findDate base b).url.isNone &&
          (parseItemBlock join parseDate findDate base b).title.isNone) = false :=
        Bool.eq_false_iff.mpr hc
      by_cases hu : (parseItemBlock join parseDate findDate base b).url = none
      · right
        intro he
        rw [hu, he] at hc'
        simp at hc'
      · left
        exact hu

/-- A block with a title but neither URL nor parseable price. -/
def blockTitleW : Block :=
  { anchorHref := none, anchorHeaderText := none, anchorText := "",
    blockHeaderText := some "Тільки назва", pText := none, imgSrc := none,
    textAll := "опис без ціни", timeDatetime := none }

/-- C5 witness: a title-only block with unparseable price yields a null-price
record that still reaches the store, and everything the store receives has a
URL or a title. -/
theorem extraction_tolerant_filter_witness :
    (parseItemBlock joinW pdW fdW "https://fora.ua" blockTitleW).price = none ∧
    parseItemBlock joinW pdW fdW "https://fora.ua" blockTitleW ∈
      processBlocks joinW pdW fdW "https://fora.ua" [blockTitleW] ∧
    ((parseItemBlock joinW pdW fdW "https://fora.ua" blockTitleW).url ≠ none ∨
     (parseItemBlock joinW pdW fdW "https://fora.ua" blockTitleW).title ≠ none) := by
  have h := extraction_tolerant_filter joinW pdW fdW "https://fora.ua"
  have hor : ((parseItemBlock joinW pdW fdW "https://fora.ua" blockTitleW).url ≠ none ∨
      (parseItemBlock joinW pdW fdW "https://fora.ua" blockTitleW).title ≠ none) :=
    Or.inr (by decide)
  have hmem := h.2.1 [blockTitleW] blockTitleW (by decide) hor
  exact ⟨h.1 blockTitleW (by decide), hmem, h.2.2 [blockTitleW] _ hmem⟩

/-- Helper: a skipped line keeps the user-agent group state. -/
theorem uaStateStep_skip (ua : Option String) (line : String)
    (hs : skipLine line = true) : uaStateStep ua line = ua := by
  unfold uaStateStep
  rw [if_pos hs]

/-- Helper: a `user-agent:` line replaces the group state. -/
theorem uaStateStep_ua (ua : Option String) (line : String)
    (hs : skipLine line = false) (ht : uaLineTest line = true) :
    uaStateStep ua line = some (trimS (afterColon (trimS line))) := by
  unfold uaStateStep
  rw [if_neg (by simp [hs]), if_pos ht]

/-- Helper: any other line keeps the group state. -/
theorem uaStateStep_other (ua : Option String) (line : String)
    (hs : skipLine line = false) (ht : uaLineTest line = false) :
    uaStateStep ua line = ua := by
  unfold uaStateStep
  rw [if_neg (by simp [hs]), if_neg (by simp [ht])]

/-- Helper: prepending a line to the scanned prefix steps the group state. -/
theorem uaState_cons (ua : Option String) (line : String) (pre : List String) :
    uaState ua (line :: pre) = uaState (uaStateStep ua line) pre := rfl

/-- Helper: if the robots scan refuses, the line list decomposes into a
scanned prefix whose group state matches this crawler, followed by a
`Disallow` line whose non-empty path prefixes the target path. -/
theorem robotsLoop_false_blocking (targetPath userAgent : String) :
    ∀ (lines : List String) (ua : Option String),
      robotsLoop targetPath userAgent lines ua = false →
      ∃ pre d post, lines = pre ++ d :: post ∧
        uaMatches userAgent (uaState ua pre) = true ∧
        blockingLine targetPath d = true := by
  intro lines
  induction lines with
  | nil =>
      intro ua h
      simp [robotsLoop] at h
  | cons line rest ih =>
      intro ua h
      simp only [robotsLoop] at h
      by_cases hs : skipLine line = true
      · rw [if_pos hs] at h
        obtain ⟨pre, d, post, hl, hu, hb⟩ := ih ua h
        exact ⟨line :: pre, d, post, by rw [List.cons_append, hl],
          by rw [uaState_cons, uaStateStep_skip ua line hs]; exact hu, hb⟩
      · have hs' : skipLine line = false := Bool.eq_false_iff.mpr hs
        rw [if_neg hs] at h
        by_cases ht : uaLineTest line = true
        · rw [if_pos ht] at h
          obtain ⟨pre, d, post, hl, hu, hb⟩ := ih _ h
          exact ⟨line :: pre, d, post, by rw [List.cons_append, hl],
            by rw [uaState_cons, uaStateStep_ua ua line hs' ht]; exact hu, hb⟩
        · have ht' : uaLineTest line = false := Bool.eq_false_iff.mpr ht
          rw [if_neg ht] at h
          rcases ua with _ | u
          · dsimp only [] at h
            obtain ⟨pre, d, post, hl, hu, hb⟩ := ih none h
            exact ⟨line :: pre, d, post, by rw [List.cons_append, hl],
              by rw [uaState_cons, uaStateStep_other none line hs' ht']; exact hu, hb⟩
          · dsimp only [] at h
            by_cases hm : (!(u == "") && (u == "*" || startsWithS (toLowerS userAgent) (toLowerS u))) = true
            · rw [if_pos hm] at h
              by_cases hd : disallowTest line = true
              · rw [if_pos hd] at h
                by_cases hp : (!(disallowPath line == "") &&
                    startsWithS targetPath (disallowPath line)) = true
                · refine ⟨[], line, rest, rfl, ?_, ?_⟩
                  · simpa [uaState, uaMatches] using hm
                  · simp [blockingLine, hs', ht', hd, hp]
                · rw [if_neg hp] at h
                  obtain ⟨pre, d, post, hl, hu, hb⟩ := ih (some u) h
                  exact ⟨line :: pre, d, post, by rw [List.cons_append, hl],
                    by rw [uaState_cons, uaStateStep_other _ line hs' ht']; exact hu, hb⟩
              · rw [if_neg hd] at h
                obtain ⟨pre, d, post, hl, hu, hb⟩ := ih (some u) h
                exact ⟨line :: pre, d, post, by rw [List.cons_append, hl],
                  by rw [uaState_cons, uaStateStep_other _ line hs' ht']; exact hu, hb⟩
            · rw [if_neg hm] at h
              obtain ⟨pre, d, post, hl, hu, hb⟩ := ih (some u) h
              exact ⟨line :: pre, d, post, by rw [List.cons_append, hl],
                by rw [uaState_cons, uaStateStep_other _ line hs' ht']; exact hu, hb⟩

/-- C10: the robots-exclusion check fails open.  A raised fetch exception or
any non-200 robots.txt response yields `True` (the crawl proceeds); the check
refuses a crawl only when a successfully fetched (status 200) robots.txt
contains, under a user-agent group matching this crawler, a `Disallow` line
whose non-empty path is a prefix of the target URL's path. -/
theorem robots_fail_open (fetchRes : Option (ℕ × List String))
    (targetPath userAgent : String) :
    (fetchRes = none → isAllowedByRobots fetchRes targetPath userAgent = true) ∧
    (∀ st lines, fetchRes = some (st, lines) → st ≠ 200 →
      isAllowedByRobots fetchRes targetPath userAgent = true) ∧
    (isAllowedByRobots fetchRes targetPath userAgent = false →
      ∃ lines pre d post, fetchRes = some (200, lines) ∧
        lines = pre ++ d :: post ∧
        uaMatches userAgent (uaState none pre) = true ∧
        blockingLine targetPath d = true) := by
  refine ⟨?_, ?_, ?_⟩
  · intro h
    rw [h]
    rfl
  · intro st lines h hst
    rw [h]
    simp only [isAllowedByRobots]
    rw [if_pos hst]
  · intro h
    rcases hf : fetchRes with _ | p
    · rw [hf] at h
      simp [isAllowedByRobots] at h
    · rcases p with ⟨st, lines⟩
      rw [hf] at h
      simp only [isAllowedByRobots] at h
      by_cases hst : st ≠ 200
      · rw [if_pos hst] at h
        cases h
      · rw [if_neg hst] at h
        have h200 : st = 200 := by omega
        obtain ⟨pre, d, post, hl, hu, hb⟩ :=
          robotsLoop_false_blocking targetPath userAgent lines none h
        exact ⟨lines, pre, d, post, by rw [h200], hl, hu, hb⟩

/-- C10 witness: the theorem applied to a failed robots fetch (allowed), a
404 response (allowed), and a 200 response with a matching `Disallow`
(refused). -/
theorem robots_fail_open_witness :
    isAllowedByRobots none "/category/milk" "fora-scraper/1.0" = true ∧
    isAllowedByRobots (some (404, ["User-agent: *", "Disallow: /"]))
      "/category/milk" "fora-scraper/1.0" = true ∧
    isAllowedByRobots (some (200, ["User-agent: *", "Disallow: /category"]))
      "/category/milk" "fora-scraper/1.0" = false := by
  refine ⟨?_, ?_, ?_⟩
  · exact (robots_fail_open none "/category/milk" "fora-scraper/1.0").1 rfl
  · exact (robots_fail_open (some (404, ["User-agent: *", "Disallow: /"]))
      "/category/milk" "fora-scraper/1.0").2.1 404 ["User-agent: *", "Disallow: /"] rfl
      (by decide)
  · decide

/-- No two rows of `products_history` share a `(product_url, data_hash)`
pair. -/
def NoDupVersions (tbl : List VRow) : Prop :=
  tbl.Pairwise (fun a b => ¬(a.productUrl = b.productUrl ∧ a.dataHash = b.dataHash))

/-- Helper: the ingest fold preserves `(url, hash)` uniqueness. -/
theorem ingestFold_nodup (hash : String → Option String → Option ℚ → String)
    (p : Payload) :
    ∀ (items : List IngestItem) (tbl : List VRow) (c : ℕ),
      NoDupVersions tbl →
      NoDupVersions (items.foldl (ingestStep hash p) (tbl, c)).1 := by
  intro items
  induction items with
  | nil => intro tbl c h; exact h
  | cons it items ih =>
      intro tbl c h
      rw [List.foldl_cons]
      unfold ingestStep
      rcases hu : it.url with _ | u
      · exact ih tbl c h
      · dsimp only []
        by_cases hex : (tbl.any
            (fun r => r.productUrl == u && r.dataHash == hash u it.productName it.price)) = true
        · rw [if_pos hex]
          exact ih tbl c h
        · rw [if_neg hex]
          refine ih _ _ ?_
          rw [NoDupVersions, List.pairwise_append]
          refine ⟨h, List.pairwise_singleton _ _, ?_⟩
          intro a ha b hb
          rw [List.mem_singleton] at hb
          have hb' : b.productUrl = u ∧ b.dataHash = hash u it.productName it.price := by
            subst hb
            exact ⟨rfl, rfl⟩
          intro hc
          apply hex
          rw [List.any_eq_true]
          refine ⟨a, ha, ?_⟩
          rw [Bool.and_eq_true, beq_iff_eq, beq_iff_eq]
          exact ⟨hb'.1 ▸ hc.1, hb'.2 ▸ hc.2⟩

/-- C4: the content-addressed `products_history` table never acquires two
rows with the same `(product_url, data_hash)` pair — the fingerprint being a
deterministic function of the `(url, name, price)` triple — and re-observing
an item whose fingerprint already exists for that URL inserts nothing. -/
theorem versions_unique (hash : String → Option String → Option ℚ → String)
    (p : Payload) (tbl : List VRow) (items : List IngestItem)
    (hnd : NoDupVersions tbl) :
    NoDupVersions (ingestItems hash p tbl items).1 ∧
    (∀ (it : IngestItem) (u : String), it.url = some u →
      (∃ r ∈ tbl, r.productUrl = u ∧ r.dataHash = hash u it.productName it.price) →
      ingestItems hash p tbl [it] = (tbl, 0)) := by
  constructor
  · exact ingestFold_nodup hash p items tbl 0 hnd
  · intro it u hu hex
    unfold ingestItems
    rw [List.foldl_cons, List.foldl_nil]
    unfold ingestStep
    rw [hu]
    dsimp only []
    rw [if_pos ?_]
    rw [List.any_eq_true]
    obtain ⟨r, hr, h1, h2⟩ := hex
    refine ⟨r, hr, ?_⟩
    rw [Bool.and_eq_true, beq_iff_eq, beq_iff_eq]
    exact ⟨h1, h2⟩

/-- A degenerate but deterministic fingerprint used for witnesses. -/
def hashW (u : String) (_ : Option String) (_ : Option ℚ) : String := u

/-- One stored version row matching `hashW`. -/
def vrowW : VRow :=
  { productUrl := "https://fora.ua/p/1", productName := some "Молоко",
    price := some 10, currency := "₴", imageUrl := none,
    category := "Молочні продукти та яйця", siteName := "Fora.ua",
    scrapedAt := none, sessionId := some "s1", dataHash := "https://fora.ua/p/1" }

/-- A payload and an item re-observing the stored version. -/
def payloadW : Payload :=
  { site := "Fora.ua", sessionId := some "s1", scrapedAt := some "2024-01-01" }

/-- The re-observed ingest item. -/
def ingItemW : IngestItem :=
  { url := some "https://fora.ua/p/1", productName := some "Молоко",
    price := some 10, currency := none, imageUrl := none, category := none,
    siteName := none, scrapedAt := none, sessionId := none }

/-- C4 witness: the theorem applied to a one-row table and the identical
re-observation. -/
theorem versions_unique_witness :
    NoDupVersions (ingestItems hashW payloadW [vrowW] [ingItemW]).1 ∧
    (∀ (it : IngestItem) (u : String), it.url = some u →
      (∃ r ∈ [vrowW], r.productUrl = u ∧ r.dataHash = hashW u it.productName it.price) →
      ingestItems hashW payloadW [vrowW] [it] = ([vrowW], 0)) :=
  versions_unique hashW payloadW [vrowW] [ingItemW] (by unfold NoDupVersions; decide)

/-- Helper: the link set representation stays duplicate-free. -/
theorem productLinks_nodup_aux (join : String → String → String) (base : String) :
    ∀ (hrefs : List String) (s₀ : List String), s₀.Nodup →
      (hrefs.foldl (fun s h =>
        if hasSub "/products/" h then (if join base h ∈ s then s else s ++ [join base h])
        else s) s₀).Nodup := by
  intro hrefs
  induction hrefs with
  | nil => intro s₀ h; exact h
  | cons x xs ih =>
      intro s₀ h
      rw [List.foldl_cons]
      by_cases hx : hasSub "/products/" x = true
      · rw [if_pos hx]
        by_cases hm : join base x ∈ s₀
        · rw [if_pos hm]
          exact ih s₀ h
        · rw [if_neg hm]
          refine ih _ ?_
          rw [List.nodup_append]
          refine ⟨h, List.nodup_singleton _, ?_⟩
          intro a ha hb
          rw [List.mem_singleton] at hb
          exact hm (hb ▸ ha)
      · rw [if_neg hx]
        exact ih s₀ h

/-- Helper: membership in the link set built by `parse_category_page`. -/
theorem mem_productLinks (join : String → String → String) (base : String) :
    ∀ (hrefs : List String) (s₀ : List String) (u : String),
      (u ∈ hrefs.foldl (fun s h =>
        if hasSub "/products/" h then (if join base h ∈ s then s else s ++ [join base h])
        else s) s₀) ↔
      (u ∈ s₀ ∨ ∃ h ∈ hrefs, hasSub "/products/" h = true ∧ u = join base h) := by
  intro hrefs
  induction hrefs with
  | nil => intro s₀ u; simp
  | cons x xs ih =>
      intro s₀ u
      rw [List.foldl_cons]
      by_cases hx : hasSub "/products/" x = true
      · rw [if_pos hx]
        by_cases hm : join base x ∈ s₀
        · rw [if_pos hm, ih]
          simp only [List.mem_cons]
          constructor
          · rintro (h1 | ⟨h, hh, hp, hu⟩)
            · exact Or.inl h1
            · exact Or.inr ⟨h, Or.inr hh, hp, hu⟩
          · rintro (h1 | ⟨h, (rfl | hh), hp, hu⟩)
            · exact Or.inl h1
            · exact Or.inl (hu ▸ hm)
            · exact Or.inr ⟨h, hh, hp, hu⟩
        · rw [if_neg hm, ih]
          simp only [List.mem_append, List.mem_cons, List.not_mem_nil, or_false]
          constructor
          · rintro (⟨h1 | h1⟩ | ⟨h, hh, hp, hu⟩)
            · exact Or.inl h1
            · exact Or.inr ⟨x, Or.inl rfl, hx, h1⟩
            · exact Or.inr ⟨h, Or.inr hh, hp, hu⟩
          · rintro (h1 | ⟨h, (rfl | hh), hp, hu⟩)
            · exact Or.inl (Or.inl h1)
            · exact Or.inl (Or.inr hu)
            · exact Or.inr ⟨h, hh, hp, hu⟩
      · rw [if_neg hx, ih]
        constructor
        · rintro (h1 | ⟨h, hh, hp, hu⟩)
          · exact Or.inl h1
          · exact Or.inr ⟨h, List.mem_cons_of_mem x hh, hp, hu⟩
        · rintro (h1 | ⟨h, hh, hp, hu⟩)
          · exact Or.inl h1
          · rcases List.mem_cons.mp hh with rfl | hh2
            · exact absurd hp hx
            · exact Or.inr ⟨h, hh2, hp, hu⟩

/-- Helper: reversal is a legal Python set enumeration. -/
theorem revEnum_valid : ValidEnum revEnum := by
  intro l hl
  exact ⟨by simpa [revEnum] using hl, fun x => by simp [revEnum]⟩

/-- C7 counterexample: the returned link list is NOT ordered by insertion
order of first discovery.  `list(links)` enumerates a Python set, whose
iteration order is unspecified; the reversed enumeration is one legal
behaviour, and on a page whose anchors appear as `/products/b` then
`/products/a` it returns the two URLs in the opposite of first-discovery
order. -/
theorem links_not_insertion_order :
    ValidEnum revEnum ∧
    parseCategoryPage revEnum joinW "" ["/products/b", "/products/a"] ≠
      firstDiscoveryOrder joinW "" ["/products/b", "/products/a"] :=
  ⟨revEnum_valid, by decide⟩

/-- C7 amended: within a single crawl, `parse_category_page` returns each
normalized product URL at most once (the list is duplicate-free and carries
exactly the joined URLs of the anchors containing `/products/`), but the
order of the returned list is an unspecified set-iteration order, not the
insertion order of first discovery. -/
theorem links_dedup_order_unspecified (enum : List String → List String)
    (join : String → String → String) (base : String) (hrefs : List String)
    (he : ValidEnum enum) :
    (parseCategoryPage enum join base hrefs).Nodup ∧
    (∀ u, u ∈ parseCategoryPage enum join base hrefs ↔
      ∃ h ∈ hrefs, hasSub "/products/" h = true ∧ u = join base h) := by
  have hnd : (productLinks join base hrefs).Nodup :=
    productLinks_nodup_aux join base hrefs [] List.nodup_nil
  constructor
  · exact (he _ hnd).1
  · intro u
    unfold parseCategoryPage
    rw [(he _ hnd).2 u]
    unfold productLinks
    rw [mem_productLinks join base hrefs [] u]
    simp

/-- The anchor hrefs of a small category page, with a duplicate. -/
def hrefsW : List String := ["/products/b", "/about", "/products/a", "/products/b"]

/-- C7 witness (amended claim): the dedup/membership theorem applied to the
sorted enumeration on a concrete page. -/
theorem links_dedup_order_unspecified_witness :
    (parseCategoryPage revEnum joinW "https://novus.zakaz.ua" hrefsW).Nodup ∧
    (∀ u, u ∈ parseCategoryPage revEnum joinW "https://novus.zakaz.ua" hrefsW ↔
      ∃ h ∈ hrefsW, hasSub "/products/" h = true ∧
        u = joinW "https://novus.zakaz.ua" h) :=
  links_dedup_order_unspecified revEnum joinW "https://novus.zakaz.ua" hrefsW
    revEnum_valid

/-- Helper: when every page beyond `K` only repeats already-covered links,
the Novus pagination loop makes at most `K + 1` fetch attempts. -/
theorem novusGo_repeat_bound (fetch : ℕ → Option (List String)) (mp K : ℕ)
    (hK : ∀ n, K < n → ∀ l ∈ linksOf fetch n, ∃ i, 1 ≤ i ∧ i ≤ K ∧ l ∈ linksOf fetch i) :
    ∀ (p : ℕ) (al : List String) (a : ℕ),
      a + 1 = p → p ≤ K + 1 →
      (∀ i, 1 ≤ i → i < p → ∀ l ∈ linksOf fetch i, l ∈ al) →
      (novusGo fetch mp p al a).2 ≤ K + 1 := by
  intro p al a ha hp hcov
  induction p, al, a using novusGo.induct fetch mp with
  | case1 p al a h1 =>
      rw [novusGo, if_pos h1]
      omega
  | case2 p al a h1 h2 =>
      rw [novusGo, if_neg h1, if_pos h2]
      omega
  | case3 p al a h1 h2 hf =>
      rw [novusGo, if_neg h1, if_neg h2, hf]
      dsimp only []
      omega
  | case4 p al a h1 h2 links hf nl hemp =>
      have hemp2 : (List.filter (fun l => !al.contains l) links).isEmpty = true := hemp
      rw [novusGo, if_neg h1, if_neg h2, hf]
      dsimp only []
      rw [if_pos hemp2]
      omega
  | case5 p al a h1 h2 links hf nl hemp ih =>
      have hemp2 : ¬(List.filter (fun l => !al.contains l) links).isEmpty = true := hemp
      rw [novusGo, if_neg h1, if_neg h2, hf]
      dsimp only []
      rw [if_neg hemp2]
      have hlinks : linksOf fetch p = links := by rw [linksOf, hf]; rfl
      have hpK : p ≤ K := by
        by_contra hgt
        push_neg at hgt
        apply hemp2
        rw [List.isEmpty_iff, List.filter_eq_nil_iff]
        intro l hl
        obtain ⟨i, hi1, hi2, hil⟩ := hK p hgt l (hlinks ▸ hl)
        have hmem : l ∈ al := hcov i hi1 (by omega) l hil
        simp [hmem]
      refine ih (by omega) (by omega) ?_
      intro i hi1 hi2 l hl
      rw [List.mem_append]
      by_cases hip : i < p
      · exact Or.inl (hcov i hi1 hip l hl)
      · have hie : i = p := by omega
        subst hie
        rw [hlinks] at hl
        by_cases hal : l ∈ al
        · exact Or.inl hal
        · refine Or.inr ?_
          rw [List.mem_filter]
          refine ⟨hl, ?_⟩
          simp [hal]

/-- Helper: the Novus loop never makes more than the 100-page safety cap of
fetch attempts. -/
theorem novusGo_cap (fetch : ℕ → Option (List String)) (mp : ℕ) :
    ∀ (p : ℕ) (al : List String) (a : ℕ),
      a + 1 = p → p ≤ 101 → (novusGo fetch mp p al a).2 ≤ 100 := by
  intro p al a ha hp
  induction p, al, a using novusGo.induct fetch mp with
  | case1 p al a h1 =>
      rw [novusGo, if_pos h1]
      omega
  | case2 p al a h1 h2 =>
      rw [novusGo, if_neg h1, if_pos h2]
      omega
  | case3 p al a h1 h2 hf =>
      rw [novusGo, if_neg h1, if_neg h2, hf]
      dsimp only []
      simp only [not_lt] at h2
      omega
  | case4 p al a h1 h2 links hf nl hemp =>
      have hemp2 : (List.filter (fun l => !al.contains l) links).isEmpty = true := hemp
      rw [novusGo, if_neg h1, if_neg h2, hf]
      dsimp only []
      rw [if_pos hemp2]
      simp only [not_lt] at h2
      omega
  | case5 p al a h1 h2 links hf nl hemp ih =>
      have hemp2 : ¬(List.filter (fun l => !al.contains l) links).isEmpty = true := hemp
      rw [novusGo, if_neg h1, if_neg h2, hf]
      dsimp only []
      rw [if_neg hemp2]
      simp only [not_lt] at h2
      exact ih (by omega) (by omega)

/-- Helper: the Fora loop never makes more than the 100-page safety cap of
fetch attempts. -/
theorem foraGo_cap (fetch : String → Option ForaPage) (join : String → String → String)
    (parseDate findDate : String → Option String) (base : String) (mp : ℕ) :
    ∀ (url : String) (count : ℕ) (acc : List Item) (att : ℕ),
      att = count → count ≤ 100 →
      (foraGo fetch join parseDate findDate base mp url count acc att).2 ≤ 100 := by
  intro url count acc att ha hc
  induction url, count, acc, att using foraGo.induct fetch join parseDate findDate base mp with
  | case1 url count acc att h1 =>
      rw [foraGo, if_pos h1]
      omega
  | case2 url count acc att h1 h2 =>
      rw [foraGo, if_neg h1, if_pos h2]
      omega
  | case3 url count acc att h1 h2 hf =>
      rw [foraGo, if_neg h1, if_neg h2, hf]
      dsimp only []
      simp only [not_le] at h2
      omega
  | case4 url count acc att h1 h2 pg hf hn =>
      rw [foraGo, if_neg h1, if_neg h2, hf]
      dsimp only []
      rw [hn]
      dsimp only []
      simp only [not_le] at h2
      omega
  | case5 count acc att h1 h2 pg nxt hn hf =>
      rw [foraGo, if_neg h1, if_neg h2, hf]
      dsimp only []
      rw [hn]
      dsimp only []
      rw [if_pos rfl]
      simp only [not_le] at h2
      omega
  | case6 url count acc att h1 h2 pg hf a2 nxt hn hne ih =>
      rw [foraGo, if_neg h1, if_neg h2, hf]
      dsimp only []
      rw [hn]
      dsimp only []
      rw [if_neg hne]
      simp only [not_le] at h2
      exact ih (by omega) (by omega)

/-- C6: pagination always terminates.  If every page beyond page `K` of a
Novus category yields no link outside those of pages `1..K`, the crawl loop
makes at most `K + 1` fetch attempts; a Fora category whose first page offers
no next-page affordance is left after exactly one fetch; and both loops are
bounded by the `MAX_PAGES = 100` safety cap whatever the source does. -/
theorem pagination_terminates (nf : ℕ → Option (List String)) (K mp₁ : ℕ)
    (ff : String → Option ForaPage) (join : String → String → String)
    (parseDate findDate : String → Option String) (base : String)
    (mp₂ : ℕ) (u₀ : String) (pg : ForaPage)
    (hK : ∀ n, K < n → ∀ l ∈ linksOf nf n, ∃ i, 1 ≤ i ∧ i ≤ K ∧ l ∈ linksOf nf i)
    (h1 : ff u₀ = some pg) (h2 : pg.next = none) :
    (novusScrape nf mp₁).2 ≤ K + 1 ∧
    (foraScrape ff join parseDate findDate base mp₂ u₀).2 = 1 ∧
    (∀ (nf' : ℕ → Option (List String)) (mp : ℕ), (novusScrape nf' mp).2 ≤ 100) ∧
    (∀ (ff' : String → Option ForaPage) (mp : ℕ) (u : String),
      (foraScrape ff' join parseDate findDate base mp u).2 ≤ 100) := by
  refine ⟨?_, ?_, ?_, ?_⟩
  · exact novusGo_repeat_bound nf mp₁ K hK 1 [] 0 rfl (by omega)
      (fun i hi1 hi2 l hl => absurd (by omega : (1 : ℕ) ≤ 0) (by omega))
  · unfold foraScrape
    rw [foraGo, if_neg (by omega), if_neg (by omega), h1]
    dsimp only []
    rw [h2]
  · intro nf' mp
    exact novusGo_cap nf' mp 1 [] 0 rfl (by omega)
  · intro ff' mp u
    exact foraGo_cap ff' join parseDate findDate base mp u 0 [] 0 rfl (by omega)

/-- A Novus fetch oracle whose every page repeats the same single link. -/
def nfW : ℕ → Option (List String) := fun _ => some ["https://novus.zakaz.ua/products/a"]

/-- A Fora fetch oracle whose pages have no next-page affordance. -/
def ffW : String → Option ForaPage := fun _ => some { blocks := [], next := none }

/-- C6 witness: the theorem applied to a source repeating after page 1 and a
source without a next link. -/
theorem pagination_terminates_witness :
    (novusScrape nfW 0).2 ≤ 2 ∧
    (foraScrape ffW joinW pdW fdW "https://fora.ua" 0 "start").2 = 1 ∧
    (∀ (nf' : ℕ → Option (List String)) (mp : ℕ), (novusScrape nf' mp).2 ≤ 100) ∧
    (∀ (ff' : String → Option ForaPage) (mp : ℕ) (u : String),
      (foraScrape ff' joinW pdW fdW "https://fora.ua" mp u).2 ≤ 100) :=
  pagination_terminates nfW 1 0 ffW joinW pdW fdW "https://fora.ua" 0 "start"
    { blocks := [], next := none }
    (fun _ _ l hl => ⟨1, by omega, by omega, hl⟩) rfl rfl

/-- The stored listing row of a URL: first row of the `listings` table whose
`url` column equals `u`. -/
def lookupUrl (db : HistDB) (u : String) : Option ListingRow :=
  db.listings.find? (fun l => l.url == u)

/-- The database component of the save loop, with no injected failures. -/
def batchDB (db : HistDB) (items : List Item) (site : String) (category : Option String)
    (now : ℕ) : HistDB :=
  items.foldl (fun d it => (upsertListing d it site category now none).1) db

/-- A listing row carrying exactly the values of an item (all columns the
`UPDATE` of `upsert_listing` writes, except the timestamp). -/
def rowMatchesItem (r : ListingRow) (it : Item) (site : String)
    (category : Option String) : Prop :=
  r.title = it.title ∧ r.snippet = it.snippet ∧ r.imageUrl = it.imageUrl ∧
  r.price = it.price ∧ r.currency = it.currency ∧ r.datePosted = it.datePosted ∧
  r.site = site ∧ r.category = category

/-- Helper: comparing boxed option values reduces to the flipped string
comparison. -/
theorem beq_some_url (u v : String) : ((some u : Option String) == some v) = (v == u) := by
  by_cases h : v = u
  · subst h
    simp
  · have h' : ¬u = v := fun hh => h hh.symm
    simp [h, h']

/-- Helper: an upsert of an item without a URL is a complete no-op (the
`INSERT` hits the `NOT NULL` constraint and is rolled back). -/
theorem upsert_none (db : HistDB) (item : Item) (site : String) (category : Option String)
    (now : ℕ) (fa : Option UpStep) (hu : item.url = none) :
    upsertListing db item site category now fa = (db, (false, none)) := by
  unfold upsertListing
  have hf : db.listings.find? (fun l => item.url == some l.url) = none := by
    rw [List.find?_eq_none]
    intro x _
    rw [hu]
    simp
  rw [hf, hu]

/-- Helper: the model's lookup of `upsert_listing` is `lookupUrl` once the
item's URL is known. -/
theorem upsert_find_eq (db : HistDB) (item : Item) (u : String) (hu : item.url = some u) :
    db.listings.find? (fun l => item.url == some l.url) = lookupUrl db u := by
  unfold lookupUrl
  congr 1
  funext l
  rw [hu, beq_some_url]

/-- Helper: `updIf` never changes a row's URL. -/
theorem updIf_url (item : Item) (site : String) (category : Option String) (now : ℕ)
    (u₀ : String) (l : ListingRow) : (updIf item site category now u₀ l).url = l.url := by
  unfold updIf updRow
  split <;> rfl

/-- Helper: `updIf` preserves the URL lookup predicate. -/
theorem updIf_pred (item : Item) (site : String) (category : Option String) (now : ℕ)
    (u₀ u : String) (l : ListingRow) :
    ((updIf item site category now u₀ l).url == u) = (l.url == u) := by
  rw [updIf_url]

/-- Helper: after an error-free upsert of an item carrying URL `u`, the
stored row of `u` holds exactly the item's values stamped with `now`. -/
theorem upsert_post (db : HistDB) (item : Item) (site : String) (category : Option String)
    (now : ℕ) (u : String) (hu : item.url = some u) :
    ∃ r, lookupUrl (upsertListing db item site category now none).1 u = some r ∧
      rowMatchesItem r item site category ∧ r.scrapedAt = now ∧ r.url = u := by
  unfold upsertListing
  rw [upsert_find_eq db item u hu]
  rcases hf : lookupUrl db u with _ | l₀
  · rw [hu]
    dsimp only []
    rw [if_neg (fun h => Option.noConfusion h)]
    refine ⟨{ id := db.nextId, url := u, title := item.title, snippet := item.snippet,
              imageUrl := item.imageUrl, price := item.price, currency := item.currency,
              datePosted := item.datePosted, scrapedAt := now, site := site,
              category := category }, ?_,
      ⟨rfl, rfl, rfl, rfl, rfl, rfl, rfl, rfl⟩, rfl, rfl⟩
    unfold lookupUrl
    rw [List.find?_append]
    unfold lookupUrl at hf
    rw [hf, Option.none_or, List.find?_cons]
    simp
  · have hl₀ : l₀.url = u := by
      have hfs : db.listings.find? (fun l => l.url == u) = some l₀ := hf
      simpa using List.find?_some hfs
    dsimp only []
    rw [if_neg (fun h => Option.noConfusion h)]
    have hmap : ∀ hist nid,
        lookupUrl { listings := db.listings.map (updIf item site category now l₀.url),
                    history := hist, nextId := nid } u =
          some (updRow item site category now l₀) := by
      intro hist nid
      unfold lookupUrl
      rw [find?_map_pred _ _ (updIf_pred item site category now l₀.url u)]
      unfold lookupUrl at hf
      rw [hf, Option.map_some']
      unfold updIf
      rw [if_pos rfl]
    by_cases hc : item.price ≠ none ∧ l₀.price ≠ item.price
    · rw [if_pos hc, if_neg (fun h => Option.noConfusion h)]
      exact ⟨_, hmap _ _, ⟨rfl, rfl, rfl, rfl, rfl, rfl, rfl, rfl⟩, rfl, hl₀⟩
    · rw [if_neg hc]
      exact ⟨_, hmap _ _, ⟨rfl, rfl, rfl, rfl, rfl, rfl, rfl, rfl⟩, rfl, hl₀⟩

/-- Helper: an error-free upsert of an item with a different (or no) URL does
not change the stored row of `u`. -/
theorem upsert_frame (db : HistDB) (item : Item) (site : String) (category : Option String)
    (now : ℕ) (u : String) (hne : item.url ≠ some u) :
    lookupUrl (upsertListing db item site category now none).1 u = lookupUrl db u := by
  rcases hu : item.url with _ | u'
  · rw [upsert_none db item site category now none hu]
  · have hne' : u' ≠ u := fun h => hne (h ▸ hu)
    unfold upsertListing
    rw [upsert_find_eq db item u' hu]
    rcases hf : lookupUrl db u' with _ | l₀
    · rw [hu]
      dsimp only []
      rw [if_neg (fun h => Option.noConfusion h)]
      unfold lookupUrl
      rw [List.find?_append]
      rcases hg : db.listings.find? (fun l => l.url == u) with _ | r
      · rw [hg, Option.none_or, List.find?_cons]
        have hb : (u' == u) = false := by simpa using hne'
        rw [hb]
        rfl
      · rw [hg]
        rfl
    · have hl₀ : l₀.url = u' := by
        have hfs : db.listings.find? (fun l => l.url == u') = some l₀ := hf
        simpa using List.find?_some hfs
      dsimp only []
      rw [if_neg (fun h => Option.noConfusion h)]
      have hmap : ∀ hist nid,
          lookupUrl { listings := db.listings.map (updIf item site category now l₀.url),
                      history := hist, nextId := nid } u =
            lookupUrl db u := by
        intro hist nid
        unfold lookupUrl
        rw [find?_map_pred _ _ (updIf_pred item site category now l₀.url u)]
        rcases hg : db.listings.find? (fun l => l.url == u) with _ | r
        · rw [hg]
          rfl
        · rw [hg, Option.map_some']
          have hr : r.url = u := by
            simpa using List.find?_some hg
          unfold updIf
          rw [if_neg (by rw [hr, hl₀]; exact fun h => hne' h.symm)]
      by_cases hc : item.price ≠ none ∧ l₀.price ≠ item.price
      · rw [if_pos hc, if_neg (fun h => Option.noConfusion h)]
        exact hmap _ _
      · rw [if_neg hc]
        exact hmap _ _

/-- Helper: one step of the batch fold. -/
theorem batchDB_cons (db : HistDB) (it : Item) (rest : List Item) (site : String)
    (category : Option String) (now : ℕ) :
    batchDB db (it :: rest) site category now =
      batchDB (upsertListing db it site category now none).1 rest site category now := rfl

/-- Helper: the database produced by `run_scraper`'s loop without injected
errors is the plain fold of error-free upserts. -/
theorem runBatch_db (db : HistDB) (items : List Item) (site : String)
    (category : Option String) (now : ℕ) :
    (runBatch db items site category now (fun _ => none)).1 =
      batchDB db items site category now := by
  unfold runBatch batchDB
  have aux1 : ∀ (l : List (ℕ × Item)) (d : HistDB) (a b : ℕ),
      (l.foldl (fun acc it =>
        let r := upsertListing acc.1 it.2 site category now ((fun _ => (none : Option UpStep)) it.1)
        if r.2.1 then (r.1, acc.2.1 + 1, acc.2.2) else (r.1, acc.2.1, acc.2.2 + 1))
        (d, a, b)).1 =
      l.foldl (fun d it => (upsertListing d it.2 site category now none).1) d := by
    intro l
    induction l with
    | nil => intro d a b; rfl
    | cons x xs ih =>
        intro d a b
        rw [List.foldl_cons, List.foldl_cons]
        cases hr : (upsertListing d x.2 site category now none).2.1
        · simp only [hr, Bool.false_eq_true, if_false]
          exact ih _ _ _
        · simp only [hr, if_true]
          exact ih _ _ _
  have aux2 : ∀ (l : List Item) (n : ℕ) (d : HistDB),
      ((List.enumFrom n l).foldl (fun d it => (upsertListing d it.2 site category now none).1) d) =
      l.foldl (fun d it => (upsertListing d it site category now none).1) d := by
    intro l
    induction l with
    | nil => intro n d; rfl
    | cons x xs ih =>
        intro n d
        rw [List.enumFrom_cons, List.foldl_cons, List.foldl_cons]
        exact ih _ _
  rw [aux1]
  exact aux2 items 0 db

/-- Helper: a batch whose items all carry other URLs leaves the stored row of
`u` unchanged. -/
theorem batchDB_frame (site : String) (category : Option String) (now : ℕ) :
    ∀ (items : List Item) (db : HistDB) (u : String),
      (∀ it ∈ items, it.url ≠ some u) →
      lookupUrl (batchDB db items site category now) u = lookupUrl db u := by
  intro items
  induction items with
  | nil => intro db u _; rfl
  | cons it rest ih =>
      intro db u h
      rw [batchDB_cons]
      rw [ih _ u (fun it' hm => h it' (List.mem_cons_of_mem _ hm))]
      exact upsert_frame db it site category now u (h it (List.mem_cons_self it rest))

/-- Helper: after an error-free batch over items with pairwise-distinct URLs,
each item's stored row carries exactly that item's values and the batch
timestamp. -/
theorem batchDB_post (site : String) (category : Option String) (now : ℕ) :
    ∀ (items : List Item) (db : HistDB),
      (items.filterMap Item.url).Nodup →
      ∀ it ∈ items, ∀ u, it.url = some u →
        ∃ r, lookupUrl (batchDB db items site category now) u = some r ∧
          rowMatchesItem r it site category ∧ r.scrapedAt = now := by
  intro items
  induction items with
  | nil => intro db _ it hmem; cases hmem
  | cons it₀ rest ih =>
      intro db hnd it hmem u hu
      rw [batchDB_cons]
      rcases List.mem_cons.mp hmem with rfl | hmem'
      · obtain ⟨r, hr, hm, hs, _⟩ := upsert_post db it site category now u hu
        have hnd' : (u :: rest.filterMap Item.url).Nodup := by
          simpa [List.filterMap_cons, hu] using hnd
        have hrest : ∀ it' ∈ rest, it'.url ≠ some u := by
          intro it' hit' heq
          exact (List.nodup_cons.mp hnd').1 (List.mem_filterMap.mpr ⟨it', hit', heq⟩)
        rw [batchDB_frame site category now rest _ u hrest]
        exact ⟨r, hr, hm, hs⟩
      · have hnd' : (rest.filterMap Item.url).Nodup := by
          rcases h0 : it₀.url with _ | v
          · simpa [List.filterMap_cons, h0] using hnd
          · have : (v :: rest.filterMap Item.url).Nodup := by
              simpa [List.filterMap_cons, h0] using hnd
            exact (List.nodup_cons.mp this).2
        exact ih _ hnd' it hmem' u hu

/-- Helper: when a stored row already matches an item, updating it only
advances the timestamp. -/
theorem updRow_of_matches (it : Item) (site : String) (category : Option String)
    (t : ℕ) (r : ListingRow) (hm : rowMatchesItem r it site category) :
    updRow it site category t r = { r with scrapedAt := t } := by
  obtain ⟨h1, h2, h3, h4, h5, h6, h7, h8⟩ := hm
  unfold updRow
  cases r
  simp only [] at h1 h2 h3 h4 h5 h6 h7 h8
  simp [h1, h2, h3, h4, h5, h6, h7, h8]

/-- Helper: re-upserting a batch whose items already match the stored rows
appends no history and only advances each touched row's timestamp. -/
theorem batchDB_second (site : String) (category : Option String) (t₂ : ℕ) :
    ∀ (items : List Item) (db₁ : HistDB),
      (items.filterMap Item.url).Nodup →
      (∀ it ∈ items, ∀ u, it.url = some u →
        ∃ r, lookupUrl db₁ u = some r ∧ rowMatchesItem r it site category) →
      (batchDB db₁ items site category t₂).history = db₁.history ∧
      (∀ it ∈ items, ∀ u, it.url = some u →
        ∃ r₁, lookupUrl db₁ u = some r₁ ∧
          lookupUrl (batchDB db₁ items site category t₂) u =
            some { r₁ with scrapedAt := t₂ }) := by
  intro items
  induction items with
  | nil =>
      intro db₁ _ _
      exact ⟨rfl, fun it hmem => absurd hmem (List.not_mem_nil it)⟩
  | cons it₀ rest ih =>
      intro db₁ hnd hinv
      rcases h0 : it₀.url with _ | u₀
      · have hstep : batchDB db₁ (it₀ :: rest) site category t₂ =
            batchDB db₁ rest site category t₂ := by
          rw [batchDB_cons, upsert_none db₁ it₀ site category t₂ none h0]
        have hnd' : (rest.filterMap Item.url).Nodup := by
          simpa [List.filterMap_cons, h0] using hnd
        obtain ⟨hh, hr⟩ := ih db₁ hnd'
          (fun it hm u hu => hinv it (List.mem_cons_of_mem _ hm) u hu)
        rw [hstep]
        refine ⟨hh, ?_⟩
        intro it hmem u hu
        rcases List.mem_cons.mp hmem with rfl | hm'
        · rw [h0] at hu
          cases hu
        · exact hr it hm' u hu
      · obtain ⟨r₀, hr₀, hm₀⟩ := hinv it₀ (List.mem_cons_self _ _) u₀ h0
        have hnd1 : (u₀ :: rest.filterMap Item.url).Nodup := by
          simpa [List.filterMap_cons, h0] using hnd
        have hu₀notin : u₀ ∉ rest.filterMap Item.url := (List.nodup_cons.mp hnd1).1
        have hnd' : (rest.filterMap Item.url).Nodup := (List.nodup_cons.mp hnd1).2
        have hrest₀ : ∀ it' ∈ rest, it'.url ≠ some u₀ := fun it' hm' he =>
          hu₀notin (List.mem_filterMap.mpr ⟨it', hm', he⟩)
        have hfind : db₁.listings.find? (fun l => it₀.url == some l.url) = some r₀ := by
          rw [upsert_find_eq db₁ it₀ u₀ h0]
          exact hr₀
        have hcond : ¬(it₀.price ≠ none ∧ r₀.price ≠ it₀.price) := by
          rintro ⟨_, hne⟩
          exact hne hm₀.2.2.2.1
        have hdb' : (upsertListing db₁ it₀ site category t₂ none).1 =
            { listings := db₁.listings.map (updIf it₀ site category t₂ r₀.url),
              history := db₁.history, nextId := db₁.nextId } := by
          unfold upsertListing
          rw [hfind]
          dsimp only []
          rw [if_neg (fun h => Option.noConfusion h), if_neg hcond]
        have hlook' : ∀ u : String, u ≠ u₀ →
            lookupUrl (upsertListing db₁ it₀ site category t₂ none).1 u = lookupUrl db₁ u := by
          intro u hne
          exact upsert_frame db₁ it₀ site category t₂ u
            (by rw [h0]; exact fun he => hne (Option.some.inj he).symm)
        have hlook₀ : lookupUrl (upsertListing db₁ it₀ site category t₂ none).1 u₀ =
            some { r₀ with scrapedAt := t₂ } := by
          rw [hdb']
          unfold lookupUrl
          rw [find?_map_pred _ _ (updIf_pred it₀ site category t₂ r₀.url u₀)]
          unfold lookupUrl at hr₀
          rw [hr₀, Option.map_some']
          unfold updIf
          rw [if_pos rfl, updRow_of_matches it₀ site category t₂ r₀ hm₀]
        have hinv' : ∀ it ∈ rest, ∀ u, it.url = some u →
            ∃ r, lookupUrl (upsertListing db₁ it₀ site category t₂ none).1 u = some r ∧
              rowMatchesItem r it site category := by
          intro it hm u hu
          obtain ⟨r, hr, hmm⟩ := hinv it (List.mem_cons_of_mem _ hm) u hu
          have hne : u ≠ u₀ := fun he => hrest₀ it hm (he ▸ hu)
          rw [hlook' u hne]
          exact ⟨r, hr, hmm⟩
        obtain ⟨hh, hr⟩ := ih _ hnd' hinv'
        have hh' : (batchDB db₁ (it₀ :: rest) site category t₂).history = db₁.history := by
          rw [batchDB_cons, hh, hdb']
        refine ⟨hh', ?_⟩
        intro it hmem u hu
        rcases List.mem_cons.mp hmem with rfl | hm'
        · rw [h0] at hu
          obtain rfl : u₀ = u := Option.some.inj hu
          refine ⟨r₀, hr₀, ?_⟩
          rw [batchDB_cons, batchDB_frame site category t₂ rest _ u₀ hrest₀]
          exact hlook₀
        · have hne : u ≠ u₀ := fun he => hrest₀ it hm' (he ▸ hu)
          obtain ⟨r₁, hr₁, hrf⟩ := hr it hm' u hu
          refine ⟨r₁, ?_, ?_⟩
          · rw [← hlook' u hne]
            exact hr₁
          · rw [batchDB_cons]
            exact hrf

/-- Helper: the ingest step for an item without a URL is the identity. -/
theorem ingestStep_none (hash : String → Option String → Option ℚ → String) (p : Payload)
    (acc : List VRow × ℕ) (it : IngestItem) (hu : it.url = none) :
    ingestStep hash p acc it = acc := by
  unfold ingestStep
  rw [hu]

/-- Helper: the ingest step skips an item whose version pair already
exists. -/
theorem ingestStep_skip (hash : String → Option String → Option ℚ → String) (p : Payload)
    (acc : List VRow × ℕ) (it : IngestItem) (u : String) (hu : it.url = some u)
    (hex : (acc.1.any
      (fun r => r.productUrl == u && r.dataHash == hash u it.productName it.price)) = true) :
    ingestStep hash p acc it = acc := by
  unfold ingestStep
  rw [hu]
  dsimp only []
  rw [if_pos hex]

/-- Helper: the ingest step appends exactly one row for a fresh version. -/
theorem ingestStep_insert (hash : String → Option String → Option ℚ → String) (p : Payload)
    (acc : List VRow × ℕ) (it : IngestItem) (u : String) (hu : it.url = some u)
    (hex : (acc.1.any
      (fun r => r.productUrl == u && r.dataHash == hash u it.productName it.price)) = false) :
    ingestStep hash p acc it = (acc.1 ++ [newVRow hash p it u], acc.2 + 1) := by
  unfold ingestStep
  rw [hu]
  dsimp only []
  rw [if_neg (by rw [hex]; exact Bool.false_ne_true)]

/-- Helper: ingest only appends to `products_history`. -/
theorem ingestFold_append (hash : String → Option String → Option ℚ → String) (p : Payload) :
    ∀ (ing : List IngestItem) (tbl : List VRow) (c : ℕ),
      ∃ ext, (ing.foldl (ingestStep hash p) (tbl, c)).1 = tbl ++ ext := by
  intro ing
  induction ing with
  | nil => intro tbl c; exact ⟨[], (List.append_nil tbl).symm⟩
  | cons it rest ih =>
      intro tbl c
      rw [List.foldl_cons]
      rcases hu : it.url with _ | u
      · rw [ingestStep_none hash p _ it hu]
        exact ih tbl c
      · by_cases hex : ((tbl.any
            (fun r => r.productUrl == u && r.dataHash == hash u it.productName it.price)) = true)
        · rw [ingestStep_skip hash p _ it u hu hex]
          exact ih tbl c
        · rw [ingestStep_insert hash p _ it u hu (Bool.eq_false_iff.mpr hex)]
          obtain ⟨ext, he⟩ := ih (tbl ++ [newVRow hash p it u]) (c + 1)
          exact ⟨[newVRow hash p it u] ++ ext, by rw [he, List.append_assoc]⟩

/-- Helper: after ingest, every item's `(url, hash)` version pair is present
in the table. -/
theorem ingestFold_complete (hash : String → Option String → Option ℚ → String)
    (p : Payload) :
    ∀ (ing : List IngestItem) (tbl : List VRow) (c : ℕ) (it : IngestItem) (u : String),
      it ∈ ing → it.url = some u →
      ∃ r ∈ (ing.foldl (ingestStep hash p) (tbl, c)).1,
        r.productUrl = u ∧ r.dataHash = hash u it.productName it.price := by
  intro ing
  induction ing with
  | nil => intro tbl c it u hm; cases hm
  | cons it₀ rest ih =>
      intro tbl c it u hm hu
      rw [List.foldl_cons]
      rcases List.mem_cons.mp hm with rfl | hm'
      · by_cases hex : ((tbl.any
            (fun r => r.productUrl == u && r.dataHash == hash u it.productName it.price)) = true)
        · rw [ingestStep_skip hash p _ it u hu hex]
          rw [List.any_eq_true] at hex
          obtain ⟨r, hrm, hp2⟩ := hex
          rw [Bool.and_eq_true, beq_iff_eq, beq_iff_eq] at hp2
          obtain ⟨ext, he⟩ := ingestFold_append hash p rest tbl c
          exact ⟨r, by rw [he]; exact List.mem_append_left _ hrm, hp2⟩
        · rw [ingestStep_insert hash p _ it u hu (Bool.eq_false_iff.mpr hex)]
          obtain ⟨ext, he⟩ := ingestFold_append hash p rest (tbl ++ [newVRow hash p it u]) (c + 1)
          refine ⟨newVRow hash p it u, ?_, rfl, rfl⟩
          rw [he]
          exact List.mem_append_left _ (List.mem_append_right _ (List.mem_singleton.mpr rfl))
      · rcases hu₀ : it₀.url with _ | u₀
        · rw [ingestStep_none hash p _ it₀ hu₀]
          exact ih tbl c it u hm' hu
        · by_cases hex : ((tbl.any (fun r =>
              r.productUrl == u₀ && r.dataHash == hash u₀ it₀.productName it₀.price)) = true)
          · rw [ingestStep_skip hash p _ it₀ u₀ hu₀ hex]
            exact ih tbl c it u hm' hu
          · rw [ingestStep_insert hash p _ it₀ u₀ hu₀ (Bool.eq_false_iff.mpr hex)]
            exact ih _ _ it u hm' hu

/-- Helper: ingesting items whose version pairs are all already stored is a
complete no-op. -/
theorem ingestFold_noop (hash : String → Option String → Option ℚ → String) (p : Payload) :
    ∀ (ing : List IngestItem) (tbl : List VRow) (c : ℕ),
      (∀ it ∈ ing, ∀ u, it.url = some u →
        ∃ r ∈ tbl, r.productUrl = u ∧ r.dataHash = hash u it.productName it.price) →
      ing.foldl (ingestStep hash p) (tbl, c) = (tbl, c) := by
  intro ing
  induction ing with
  | nil => intro tbl c _; rfl
  | cons it₀ rest ih =>
      intro tbl c hyp
      rw [List.foldl_cons]
      rcases hu₀ : it₀.url with _ | u₀
      · rw [ingestStep_none hash p _ it₀ hu₀]
        exact ih tbl c (fun it hm => hyp it (List.mem_cons_of_mem _ hm))
      · obtain ⟨r, hrm, h1, h2⟩ := hyp it₀ (List.mem_cons_self _ _) u₀ hu₀
        have hex : (tbl.any (fun r =>
            r.productUrl == u₀ && r.dataHash == hash u₀ it₀.productName it₀.price)) = true := by
          rw [List.any_eq_true]
          exact ⟨r, hrm, by rw [Bool.and_eq_true, beq_iff_eq, beq_iff_eq]; exact ⟨h1, h2⟩⟩
        rw [ingestStep_skip hash p _ it₀ u₀ hu₀ hex]
        exact ih tbl c (fun it hm => hyp it (List.mem_cons_of_mem _ hm))

/-- C2: running the same crawl twice against an unchanged source is
idempotent.  The second error-free batch of the same records (with
pairwise-distinct URLs) appends zero `price_history` rows; each upserted
listing keeps every stored field except `scraped_at`, which is restamped
with the second run's time (`t₁` to `t₂`); and re-ingesting the identical
items into the versioned `products_history` table inserts zero new rows. -/
theorem second_crawl_idempotent (db : HistDB) (items : List Item) (site : String)
    (category : Option String) (t₁ t₂ : ℕ)
    (hash : String → Option String → Option ℚ → String) (p : Payload)
    (tbl : List VRow) (ing : List IngestItem)
    (hnd : (items.filterMap Item.url).Nodup) :
    (runBatch (runBatch db items site category t₁ (fun _ => none)).1 items site category t₂
        (fun _ => none)).1.history =
      (runBatch db items site category t₁ (fun _ => none)).1.history ∧
    (∀ it ∈ items, ∀ u, it.url = some u →
      ∃ r₁, lookupUrl (runBatch db items site category t₁ (fun _ => none)).1 u = some r₁ ∧
        r₁.scrapedAt = t₁ ∧
        lookupUrl (runBatch (runBatch db items site category t₁ (fun _ => none)).1 items site
            category t₂ (fun _ => none)).1 u = some { r₁ with scrapedAt := t₂ }) ∧
    ingestItems hash p (ingestItems hash p tbl ing).1 ing =
      ((ingestItems hash p tbl ing).1, 0) := by
  simp only [runBatch_db]
  have hpost := batchDB_post site category t₁ items db hnd
  have hinv : ∀ it ∈ items, ∀ u, it.url = some u →
      ∃ r, lookupUrl (batchDB db items site category t₁) u = some r ∧
        rowMatchesItem r it site category := by
    intro it hm u hu
    obtain ⟨r, hr, hmm, _⟩ := hpost it hm u hu
    exact ⟨r, hr, hmm⟩
  obtain ⟨hh, hrows⟩ := batchDB_second site category t₂ items _ hnd hinv
  refine ⟨hh, ?_, ?_⟩
  · intro it hm u hu
    obtain ⟨r₁, hr₁, hrf⟩ := hrows it hm u hu
    obtain ⟨r₁', hr₁', _, hs⟩ := hpost it hm u hu
    have hre : r₁' = r₁ := by
      rw [hr₁] at hr₁'
      exact (Option.some.inj hr₁').symm
    exact ⟨r₁, hr₁, hre ▸ hs, hrf⟩
  · show List.foldl (ingestStep hash p) ((ingestItems hash p tbl ing).1, 0) ing =
      ((ingestItems hash p tbl ing).1, 0)
    apply ingestFold_noop
    intro it hm u hu
    exact ingestFold_complete hash p ing tbl 0 it u hm hu

/-- An initially empty `HistoricalDB`. -/
def dbE : HistDB := { listings := [], history := [], nextId := 1 }

/-- C2 witness: the idempotence theorem applied to a one-item crawl run at
times 1 and 2 over an empty database, and a one-item re-ingest. -/
theorem second_crawl_idempotent_witness :
    (runBatch (runBatch dbE [itemW] "fora" none 1 (fun _ => none)).1 [itemW] "fora" none 2
        (fun _ => none)).1.history =
      (runBatch dbE [itemW] "fora" none 1 (fun _ => none)).1.history ∧
    (∀ it ∈ [itemW], ∀ u, it.url = some u →
      ∃ r₁, lookupUrl (runBatch dbE [itemW] "fora" none 1 (fun _ => none)).1 u = some r₁ ∧
        r₁.scrapedAt = 1 ∧
        lookupUrl (runBatch (runBatch dbE [itemW] "fora" none 1 (fun _ => none)).1 [itemW] "fora"
            none 2 (fun _ => none)).1 u = some { r₁ with scrapedAt := 2 }) ∧
    ingestItems hashW payloadW (ingestItems hashW payloadW [] [ingItemW]).1 [ingItemW] =
      ((ingestItems hashW payloadW [] [ingItemW]).1, 0) :=
  second_crawl_idempotent dbE [itemW] "fora" none 1 2 hashW payloadW [] [ingItemW] (by decide)
